import Mathlib

/-!
# Verification of the client-side Canny edge-detection pipeline

Shallow embedding of the image-processing core (grayscale → blur → Sobel →
non-maximum suppression → double threshold → hysteresis → dilation → raster
output).  Phase-2 functions (`computeThresholds`, `hysteresis`, `dilate`,
raster output) work on exact rationals standing for the JS `number`/
`Float32Array` values; phase-1 functions (`sobel`, `nonMaxSuppression`) are
embedded over the reals because they involve `Math.sqrt` and `Math.atan2`.
Buffers are row-major, index `i = y * w + x`.
-/

namespace Canny

/-- Running maximum of the positive entries of the suppressed-magnitude
buffer, starting from `0`, exactly as the scan loop in `computeThresholds`
(`if (mag[i] > 0) { if (mag[i] > maxMag) maxMag = mag[i]; ... }`). -/
def maxMagOf (mag : List ℚ) : ℚ :=
  mag.foldl (fun m v => if 0 < v then (if m < v then v else m) else m) 0

/-- Number of strictly positive entries of the buffer (`count` in
`computeThresholds`). -/
def nonzeroCount (mag : List ℚ) : ℕ :=
  (mag.filter (fun v => decide (0 < v))).length

/-- Histogram bin of a magnitude value:
`Math.min(bins - 1, Math.floor((mag[i] / maxMag) * (bins - 1)))` with
`bins = 256`. -/
def binOf (v maxMag : ℚ) : ℕ :=
  min 255 (Int.toNat ⌊v / maxMag * 255⌋)

/-- `hist[b]`: how many positive magnitude values fall into bin `b`
(the histogram-filling loop of `computeThresholds`). -/
def histogram (mag : List ℚ) (maxMag : ℚ) (b : ℕ) : ℕ :=
  (mag.filter (fun v => decide (0 < v) && decide (binOf v maxMag = b))).length

/-- `percentile = 1 - (sensitivity / 100) * 0.9`. -/
def percentile (s : ℕ) : ℚ :=
  1 - ((s : ℚ) / 100) * (9 / 10)

/-- `targetCount = Math.floor(percentile * count)`. -/
def targetCount (mag : List ℚ) (s : ℕ) : ℤ :=
  ⌊percentile s * (nonzeroCount mag : ℚ)⌋

/-- The cumulative-walk loop of `computeThresholds`: starting at bin `i`
with accumulator `cum`, add `hist i` and stop at the first bin where the
cumulative count reaches `target`; if the walk exhausts all bins the
initial value `highBin = bins - 1 = 255` is kept.  `r` is the number of
bins left to visit. -/
def findHighBinAux (hist : ℕ → ℕ) (target : ℤ) : ℕ → ℕ → ℤ → ℕ
  | 0, _, _ => 255
  | r + 1, i, cum =>
      let c := cum + (hist i : ℤ)
      if target ≤ c then i else findHighBinAux hist target r (i + 1) c

/-- The whole cumulative walk over bins `0..255`. -/
def findHighBin (hist : ℕ → ℕ) (target : ℤ) : ℕ :=
  findHighBinAux hist target 256 0 0

/-- `computeThresholds`, returning `(low, high)`.  `low = high * 0.4`;
`high = (highBin / (bins - 1)) * maxMag`. -/
def computeThresholds (mag : List ℚ) (s : ℕ) : ℚ × ℚ :=
  let maxMag := maxMagOf mag
  let count := nonzeroCount mag
  if count = 0 ∨ maxMag = 0 then (0, 0)
  else
    let highBin := findHighBin (histogram mag maxMag) (targetCount mag s)
    let high := ((highBin : ℚ) / 255) * maxMag
    (high * (2 / 5), high)

/-! ## Hysteresis (step 6) -/

/-- `x` coordinate of a flat index (`idx % w` in the BFS loop). -/
def idxX (w i : ℕ) : ℕ := i % w

/-- `y` coordinate of a flat index (`(idx - x) / w` in the BFS loop). -/
def idxY (w i : ℕ) : ℕ := (i - i % w) / w


/-- The 8 neighbour offsets `(dy, dx)` in the iteration order of the
hysteresis BFS (`dy` outer from −1 to 1, `dx` inner, skipping `(0,0)`). -/
def offsets8 : List (ℤ × ℤ) :=
  [(-1, -1), (-1, 0), (-1, 1), (0, -1), (0, 1), (1, -1), (1, 0), (1, 1)]

/-- The in-bounds pixels at the given `(dy, dx)` offsets from pixel `i`
(`nx = x + dx`, `ny = y + dy`, kept when `0 ≤ nx < w` and `0 ≤ ny < h`,
flat index `ny * w + nx`).  Shared shape of the hysteresis neighbour
scan and the dilation paint loop. -/
def nbhdList (offs : List (ℤ × ℤ)) (w h : ℕ) (i : Fin (w * h)) :
    List (Fin (w * h)) :=
  offs.filterMap fun d =>
    let nx : ℤ := (idxX w i.val : ℤ) + d.2
    let ny : ℤ := (idxY w i.val : ℤ) + d.1
    if hb : 0 ≤ nx ∧ nx < (w : ℤ) ∧ 0 ≤ ny ∧ ny < (h : ℤ) then
      some ⟨ny.toNat * w + nx.toNat, by
        have h1 : nx.toNat < w := by omega
        have h2 : ny.toNat < h := by omega
        calc ny.toNat * w + nx.toNat < ny.toNat * w + w := by omega
          _ = (ny.toNat + 1) * w := by ring
          _ ≤ h * w := Nat.mul_le_mul_right w h2
          _ = w * h := Nat.mul_comm h w⟩
    else none

/-- In-bounds 8-connected neighbours of pixel `i`, in BFS scan order
(the `nx`/`ny` bounds checks of the hysteresis loop). -/
def nbrs (w h : ℕ) (i : Fin (w * h)) : List (Fin (w * h)) :=
  nbhdList offsets8 w h i

/-- `classified[i] === strong`, i.e. `mag[i] >= high`. -/
def strongB (mag : List ℚ) (high : ℚ) (i : ℕ) : Bool :=
  decide (high ≤ mag.getD i 0)

/-- `classified[i] === weak`, i.e. `mag[i] >= low` but not `mag[i] >= high`. -/
def weakB (mag : List ℚ) (low high : ℚ) (i : ℕ) : Bool :=
  !strongB mag high i && decide (low ≤ mag.getD i 0)

/-- The BFS loop of `hysteresis`.  `visited` is the set of pixels whose
`result` entry is already `1`; the list is the unprocessed tail of the
queue (`queue[front..]`); popping the head visits it and appends its
unclaimed weak neighbours.  The loop runs until the queue is exhausted.
`fuel` is a structural-recursion bound; `hysteresis` passes a fuel that
is proven sufficient (each pushed pixel is new, so the quantity
`9·|unvisited| + |queue|` strictly decreases), so the fuel pattern never
fires on the actual call. -/
def bfsGo {n : ℕ} (wk : Fin n → Bool) (nb : Fin n → List (Fin n)) :
    ℕ → List (Fin n) → Finset (Fin n) → Finset (Fin n)
  | 0, _, visited => visited
  | _ + 1, [], visited => visited
  | fuel + 1, i :: rest, visited =>
      let new := (nb i).filter fun j => wk j && decide (j ∉ visited)
      bfsGo wk nb fuel (rest ++ new) (visited ∪ new.toFinset)

/-- `hysteresis`: classify by double threshold, seed the BFS with all
strong pixels (in index order, `result[i] = 1` for each), then absorb
weak pixels connected to the seeds.  Returns the set of indices whose
`result` entry is `1`. -/
def hysteresis (mag : List ℚ) (w h : ℕ) (low high : ℚ) : Finset (Fin (w * h)) :=
  let seeds := (List.finRange (w * h)).filter fun i => strongB mag high i.val
  bfsGo (fun j => weakB mag low high j.val) (nbrs w h) (10 * (w * h)) seeds seeds.toFinset

/-! ## Dilation (step 7) -/

/-- The 9 offsets `(dy, dx)` painted by one set pixel during dilation
(`dy` outer, `dx` inner, the centre included). -/
def offsets9 : List (ℤ × ℤ) :=
  [(-1, -1), (-1, 0), (-1, 1), (0, -1), (0, 0), (0, 1), (1, -1), (1, 0), (1, 1)]

/-- In-bounds pixels painted by a set pixel `i` in one dilation pass. -/
def paintNbhd (w h : ℕ) (i : Fin (w * h)) : List (Fin (w * h)) :=
  nbhdList offsets9 w h i

/-- One dilation iteration: `next[ny*w+nx] = 1` for every set pixel and
every in-bounds `(dy, dx)` offset. -/
def dilateStep (w h : ℕ) (cur : Finset (Fin (w * h))) : Finset (Fin (w * h)) :=
  cur.biUnion fun i => (paintNbhd w h i).toFinset

/-- `dilate`: identity for `thickness <= 1`, else `thickness - 1`
iterations of `dilateStep`. -/
def dilate (w h : ℕ) (edges : Finset (Fin (w * h))) (thickness : ℕ) :
    Finset (Fin (w * h)) :=
  if thickness ≤ 1 then edges else (dilateStep w h)^[thickness - 1] edges

/-! ## Raster output and the public phase-2 entry points -/

/-- The RGBA output loop shared by `processWithSettings` and
`getDownloadDataUrl`: `val = dilated[i] ? 0 : 255`, bytes
`[val, val, val, 255]` per pixel. -/
def rasterize (w h : ℕ) (dilated : Finset (Fin (w * h))) : List ℕ :=
  (List.finRange (w * h)).flatMap fun i =>
    let val := if i ∈ dilated then 0 else 255
    [val, val, val, 255]

/-- The phase-1 cache (`ProcessingCache`).  `suppressed` holds the
row-major suppressed-magnitude values. -/
structure ProcessingCache where
  suppressed : List ℚ
  width : ℕ
  height : ℕ
  originalUrl : String

/-- The slider settings (`ProcessingOptions`). -/
structure ProcessingOptions where
  sensitivity : ℕ
  thickness : ℕ

/-- Result of a phase-2 run: the RGBA raster together with the cache as
it stands after the call.  The cache component makes the frame condition
(`processWithSettings` only reads the cache) explicit in the embedding:
phase 2 allocates fresh buffers (`hist`, `classified`, `result`, `next`,
`out`) and never writes through `cache.suppressed`. -/
structure RenderResult where
  raster : List ℕ
  cache : ProcessingCache

/-- `processWithSettings`: thresholds → hysteresis → dilation → raster. -/
def processWithSettings (cache : ProcessingCache) (options : ProcessingOptions) :
    RenderResult :=
  let lowHigh := computeThresholds cache.suppressed options.sensitivity
  let edges := hysteresis cache.suppressed cache.width cache.height lowHigh.1 lowHigh.2
  let dilated := dilate cache.width cache.height edges options.thickness
  { raster := rasterize cache.width cache.height dilated, cache := cache }

/-- `getDownloadDataUrl`: same pipeline as `processWithSettings`, only
the final encoding differs (PNG instead of JPEG), which is outside the
pixel model. -/
def getDownloadDataUrl (cache : ProcessingCache) (options : ProcessingOptions) :
    RenderResult :=
  let lowHigh := computeThresholds cache.suppressed options.sensitivity
  let edges := hysteresis cache.suppressed cache.width cache.height lowHigh.1 lowHigh.2
  let dilated := dilate cache.width cache.height edges options.thickness
  { raster := rasterize cache.width cache.height dilated, cache := cache }

/-- Number of black pixels of an RGBA raster (pixels whose red byte is
`0`; the output loop writes `0` or `255` to all three colour bytes). -/
def countBlack (raster : List ℕ) : ℕ :=
  ((List.range (raster.length / 4)).filter fun i => decide (raster.getD (4 * i) 255 = 0)).length

/-! ## Phase 1: Sobel and non-maximum suppression (over ℝ)

`Math.sqrt` and `Math.atan2` force this part of the embedding onto the
reals.  Buffers are total functions `ℕ → ℝ`; the interior guard on the
flat index plays the role of the `y`/`x` loop bounds, and the `else 0`
branch is the zero-initialised output array. -/

/-- JavaScript `a % b` for the operand signs that occur here
(`a ≥ 0`, `b > 0`), i.e. the remainder `a - b·⌊a/b⌋`. -/
noncomputable def jsMod (a b : ℝ) : ℝ := a - b * (⌊a / b⌋ : ℤ)

/-- `Math.atan2(y, x)`, the argument of the point `(x, y)`, in `(−π, π]`. -/
noncomputable def atan2 (y x : ℝ) : ℝ := Complex.arg ⟨x, y⟩

/-- `sobel`: gradient magnitude and direction.  Interior pixels get
`sqrt(gx² + gy²)` and `atan2(gy, gx)` from the 3×3 Sobel stencil; the
1-pixel border keeps the zero the output arrays were allocated with. -/
noncomputable def sobel (input : ℕ → ℝ) (w h : ℕ) : (ℕ → ℝ) × (ℕ → ℝ) :=
  (fun idx =>
    let x := idx % w
    let y := idx / w
    if 1 ≤ x ∧ x < w - 1 ∧ 1 ≤ y ∧ y < h - 1 then
      let tl := input ((y - 1) * w + (x - 1))
      let t := input ((y - 1) * w + x)
      let tr := input ((y - 1) * w + (x + 1))
      let l := input (y * w + (x - 1))
      let r := input (y * w + (x + 1))
      let bl := input ((y + 1) * w + (x - 1))
      let b := input ((y + 1) * w + x)
      let br := input ((y + 1) * w + (x + 1))
      let gx := -tl + tr - 2 * l + 2 * r - bl + br
      let gy := -tl - 2 * t - tr + bl + 2 * b + br
      Real.sqrt (gx * gx + gy * gy)
    else 0,
   fun idx =>
    let x := idx % w
    let y := idx / w
    if 1 ≤ x ∧ x < w - 1 ∧ 1 ≤ y ∧ y < h - 1 then
      let tl := input ((y - 1) * w + (x - 1))
      let t := input ((y - 1) * w + x)
      let tr := input ((y - 1) * w + (x + 1))
      let l := input (y * w + (x - 1))
      let r := input (y * w + (x + 1))
      let bl := input ((y + 1) * w + (x - 1))
      let b := input ((y + 1) * w + x)
      let br := input ((y + 1) * w + (x + 1))
      let gx := -tl + tr - 2 * l + 2 * r - bl + br
      let gy := -tl - 2 * t - tr + bl + 2 * b + br
      atan2 gy gx
    else 0)

/-- The 180°-periodic degree mapping of the NMS loop:
`deg = (dir * 180 / π + 180) % 180`. -/
noncomputable def quantDeg (dirv : ℝ) : ℝ :=
  jsMod (dirv * 180 / Real.pi + 180) 180

/-- The two magnitude taps along the quantised orientation, selected by
the `22.5° / 67.5° / 112.5° / 157.5°` bin boundaries of the NMS loop. -/
noncomputable def orientNeighbors (mag : ℕ → ℝ) (w x y : ℕ) (deg : ℝ) : ℝ × ℝ :=
  if deg < 22.5 ∨ 157.5 ≤ deg then
    (mag (y * w + (x - 1)), mag (y * w + (x + 1)))
  else if deg < 67.5 then
    (mag ((y - 1) * w + (x + 1)), mag ((y + 1) * w + (x - 1)))
  else if deg < 112.5 then
    (mag ((y - 1) * w + x), mag ((y + 1) * w + x))
  else
    (mag ((y - 1) * w + (x - 1)), mag ((y + 1) * w + (x + 1)))

/-- `nonMaxSuppression`: keep an interior pixel's magnitude iff it is a
local maximum along the quantised gradient orientation; ties kept,
zero-magnitude pixels and the border stay zero. -/
noncomputable def nonMaxSuppression (mag dir : ℕ → ℝ) (w h : ℕ) : ℕ → ℝ :=
  fun idx =>
    let x := idx % w
    let y := idx / w
    if 1 ≤ x ∧ x < w - 1 ∧ 1 ≤ y ∧ y < h - 1 then
      let m := mag idx
      if m = 0 then 0
      else
        let n12 := orientNeighbors mag w x y (quantDeg (dir idx))
        if n12.1 ≤ m ∧ n12.2 ≤ m then m else 0
    else 0

/-! ### Accessed indices

The flat indices that `sobel` and `nonMaxSuppression` read and write,
listed straight from their loop bodies so that bounds safety is a
statement about the program text rather than about the total-function
model. -/

/-- The interior pixels `(x, y)` visited by the Sobel/NMS loops
(`y` from `1` to `h - 2`, `x` from `1` to `w - 2`). -/
def interiorPairs (w h : ℕ) : List (ℕ × ℕ) :=
  (List.range' 1 (h - 2)).flatMap fun y =>
    (List.range' 1 (w - 2)).map fun x => (x, y)

/-- Indices read by `sobel` (the eight stencil taps, per interior pixel). -/
def sobelReads (w h : ℕ) : List ℕ :=
  (interiorPairs w h).flatMap fun p =>
    [(p.2 - 1) * w + (p.1 - 1), (p.2 - 1) * w + p.1, (p.2 - 1) * w + (p.1 + 1),
     p.2 * w + (p.1 - 1), p.2 * w + (p.1 + 1),
     (p.2 + 1) * w + (p.1 - 1), (p.2 + 1) * w + p.1, (p.2 + 1) * w + (p.1 + 1)]

/-- Indices written by `sobel` (`magnitude[idx]` and `direction[idx]`). -/
def sobelWrites (w h : ℕ) : List ℕ :=
  (interiorPairs w h).map fun p => p.2 * w + p.1

/-- Indices read by `nonMaxSuppression`: `mag[idx]`, `dir[idx]`, and the
neighbour taps of whichever orientation branch runs (all four branches
together read exactly the eight 3×3 neighbours, so the list covers every
branch). -/
def nmsReads (w h : ℕ) : List ℕ :=
  (interiorPairs w h).flatMap fun p =>
    [p.2 * w + p.1,
     p.2 * w + (p.1 - 1), p.2 * w + (p.1 + 1),
     (p.2 - 1) * w + (p.1 + 1), (p.2 + 1) * w + (p.1 - 1),
     (p.2 - 1) * w + p.1, (p.2 + 1) * w + p.1,
     (p.2 - 1) * w + (p.1 - 1), (p.2 + 1) * w + (p.1 + 1)]

/-- Indices written by `nonMaxSuppression` (`output[idx]`). -/
def nmsWrites (w h : ℕ) : List ℕ :=
  (interiorPairs w h).map fun p => p.2 * w + p.1

/-! ## Claim-side definitions (specification vocabulary) -/

/-- Number of suppressed-magnitude pixels whose value is at least `t`
(the spec's test quantity for sensitivity monotonicity). -/
def countAtLeast (mag : List ℚ) (t : ℚ) : ℕ :=
  (mag.filter fun v => decide (t ≤ v)).length

/-- Cumulative histogram count through bin `k` (inclusive), as an
integer for comparison with the target count. -/
def cumHist (hist : ℕ → ℕ) (k : ℕ) : ℤ :=
  ∑ j ∈ Finset.range (k + 1), (hist j : ℤ)

/-- Modelled from claim C2's words: the first bin at which the
cumulative histogram count reaches `percentile × totalNonzeroCount`
(the exact product, as stated), defaulting to 255. -/
def claimFirstBin (mag : List ℚ) (s : ℕ) : ℕ :=
  (((List.range 256).find? fun k =>
      decide (percentile s * (nonzeroCount mag : ℚ)
        ≤ ∑ j ∈ Finset.range (k + 1), (histogram mag (maxMagOf mag) j : ℚ)))).getD 255

/-- Modelled from claim C2's words: the high threshold as that bin's
UPPER bound rescaled to magnitude units, `((bin + 1) / 255) * maxMag`. -/
def claimHighUpper (mag : List ℚ) (s : ℕ) : ℚ :=
  ((claimFirstBin mag s : ℚ) + 1) / 255 * maxMagOf mag

/-- Pixels reachable from the seed set by repeatedly stepping to a
neighbour that the classifier marks weak — the set the hysteresis BFS
computes. -/
inductive ReachFrom {n : ℕ} (nb : Fin n → List (Fin n)) (wk : Fin n → Bool)
    (seeds : Finset (Fin n)) : Fin n → Prop
  | seed {i : Fin n} : i ∈ seeds → ReachFrom nb wk seeds i
  | step {i j : Fin n} : ReachFrom nb wk seeds i → j ∈ nb i → wk j = true →
      ReachFrom nb wk seeds j

/-- 8-connectivity as the claim states it: distinct pixels whose `x` and
`y` coordinates each differ by at most one. -/
def Adj (w h : ℕ) (i j : Fin (w * h)) : Prop :=
  i ≠ j ∧
    (((j.val % w : ℕ) : ℤ) - ((i.val % w : ℕ) : ℤ)).natAbs ≤ 1 ∧
    (((j.val / w : ℕ) : ℤ) - ((i.val / w : ℕ) : ℤ)).natAbs ≤ 1

/-- The claim's "strong" classification: `mag[i] ≥ high`. -/
def strongAt (mag : List ℚ) (high : ℚ) {n : ℕ} (i : Fin n) : Prop :=
  high ≤ mag.getD i.val 0

/-- The claim's "weak" classification: `low ≤ mag[i] < high`. -/
def weakAt (mag : List ℚ) (low high : ℚ) {n : ℕ} (i : Fin n) : Prop :=
  low ≤ mag.getD i.val 0 ∧ mag.getD i.val 0 < high

/-- The claim's reachability condition: some strong pixel reaches `i`
through a chain of 8-connected weak-or-strong pixels. -/
def ReachableFromStrong (mag : List ℚ) (low high : ℚ) (w h : ℕ)
    (i : Fin (w * h)) : Prop :=
  ∃ s, strongAt mag high s ∧
    Relation.ReflTransGen
      (fun a b => Adj w h a b ∧ (strongAt mag high b ∨ weakAt mag low high b)) s i

/-! ## Coordinate and neighbourhood lemmas -/

theorem idxY_eq_div (w i : ℕ) : idxY w i = i / w := by
  rcases Nat.eq_zero_or_pos w with hw | hw
  · simp [idxY, hw]
  · have h := Nat.div_add_mod i w
    have : i - i % w = w * (i / w) := by omega
    rw [idxY, this, Nat.mul_div_cancel_left _ hw]

theorem flat_lt {x y w h : ℕ} (hx : x < w) (hy : y < h) : y * w + x < w * h := by
  calc y * w + x < y * w + w := by omega
    _ = (y + 1) * w := by ring
    _ ≤ h * w := Nat.mul_le_mul_right w hy
    _ = w * h := Nat.mul_comm h w

theorem w_pos_of_fin {w h : ℕ} (i : Fin (w * h)) : 0 < w := by
  rcases Nat.eq_zero_or_pos w with hw | hw
  · exact absurd i.isLt (by simp [hw])
  · exact hw

theorem h_pos_of_fin {w h : ℕ} (i : Fin (w * h)) : 0 < h := by
  rcases Nat.eq_zero_or_pos h with hh | hh
  · exact absurd i.isLt (by simp [hh])
  · exact hh

theorem div_lt_of_fin {w h : ℕ} (i : Fin (w * h)) : i.val / w < h :=
  Nat.div_lt_of_lt_mul (by have := i.isLt; omega)

/-- Membership in `nbhdList` is exactly "the coordinates differ from
`i`'s by one of the offsets". -/
theorem mem_nbhdList {offs : List (ℤ × ℤ)} {w h : ℕ} {i j : Fin (w * h)} :
    j ∈ nbhdList offs w h i ↔
      ∃ d ∈ offs, ((j.val % w : ℕ) : ℤ) = ((i.val % w : ℕ) : ℤ) + d.2 ∧
        ((j.val / w : ℕ) : ℤ) = ((i.val / w : ℕ) : ℤ) + d.1 := by
  have hw : 0 < w := w_pos_of_fin i
  rw [nbhdList, List.mem_filterMap]
  constructor
  · rintro ⟨d, hd, hf⟩
    refine ⟨d, hd, ?_⟩
    simp only [idxX, idxY_eq_div] at hf
    split_ifs at hf with hb
    · obtain ⟨h1, h2, h3, h4⟩ := hb
      have hval : j.val
          = (((i.val % w : ℕ) : ℤ) + d.2).toNat
            + (((i.val / w : ℕ) : ℤ) + d.1).toNat * w := by
        have hj := congrArg Fin.val (Option.some.inj hf)
        simp only [] at hj
        omega
      have hxlt : (((i.val % w : ℕ) : ℤ) + d.2).toNat < w := by omega
      have hmod : j.val % w = (((i.val % w : ℕ) : ℤ) + d.2).toNat := by
        rw [hval, Nat.add_mul_mod_self_right, Nat.mod_eq_of_lt hxlt]
      have hdiv : j.val / w = (((i.val / w : ℕ) : ℤ) + d.1).toNat := by
        rw [hval, Nat.add_mul_div_right _ _ hw, Nat.div_eq_of_lt hxlt, Nat.zero_add]
      omega
  · rintro ⟨d, hd, hx, hy⟩
    refine ⟨d, hd, ?_⟩
    simp only [idxX, idxY_eq_div]
    have hxlt : j.val % w < w := Nat.mod_lt _ hw
    have hylt : j.val / w < h := div_lt_of_fin j
    have hx' : ((i.val % w : ℕ) : ℤ) + d.2 = ((j.val % w : ℕ) : ℤ) := hx.symm
    have hy' : ((i.val / w : ℕ) : ℤ) + d.1 = ((j.val / w : ℕ) : ℤ) := hy.symm
    have hcond : 0 ≤ ((i.val % w : ℕ) : ℤ) + d.2 ∧ ((i.val % w : ℕ) : ℤ) + d.2 < (w : ℤ) ∧
        0 ≤ ((i.val / w : ℕ) : ℤ) + d.1 ∧ ((i.val / w : ℕ) : ℤ) + d.1 < (h : ℤ) := by
      refine ⟨?_, ?_, ?_, ?_⟩
      · rw [hx']; exact Int.natCast_nonneg _
      · rw [hx']; exact_mod_cast hxlt
      · rw [hy']; exact Int.natCast_nonneg _
      · rw [hy']; exact_mod_cast hylt
    rw [dif_pos hcond]
    congr 1
    apply Fin.ext
    show (((i.val / w : ℕ) : ℤ) + d.1).toNat * w + (((i.val % w : ℕ) : ℤ) + d.2).toNat
        = j.val
    rw [hx', hy', Int.toNat_natCast, Int.toNat_natCast, Nat.mul_comm]
    exact Nat.div_add_mod j.val w

/-! ## Dilation lemmas -/

theorem mem_paintNbhd_self {w h : ℕ} (i : Fin (w * h)) : i ∈ paintNbhd w h i := by
  rw [paintNbhd, mem_nbhdList]
  exact ⟨(0, 0), by simp [offsets9], by simp⟩

theorem subset_dilateStep {w h : ℕ} (cur : Finset (Fin (w * h))) :
    cur ⊆ dilateStep w h cur := by
  intro i hi
  exact Finset.mem_biUnion.mpr ⟨i, hi, List.mem_toFinset.mpr (mem_paintNbhd_self i)⟩

theorem dilateStep_mono {w h : ℕ} {a b : Finset (Fin (w * h))} (hab : a ⊆ b) :
    dilateStep w h a ⊆ dilateStep w h b := by
  intro i hi
  rcases Finset.mem_biUnion.mp hi with ⟨j, hj, hji⟩
  exact Finset.mem_biUnion.mpr ⟨j, hab hj, hji⟩

theorem subset_dilateStep_iterate {w h : ℕ} (cur : Finset (Fin (w * h))) :
    ∀ k m : ℕ, k ≤ m → (dilateStep w h)^[k] cur ⊆ (dilateStep w h)^[m] cur := by
  intro k m hkm
  induction m with
  | zero => simpa [Nat.le_zero.mp hkm] using Finset.Subset.refl _
  | succ m ih =>
      rcases Nat.lt_or_ge k (m + 1) with hlt | hge
      · calc (dilateStep w h)^[k] cur
            ⊆ (dilateStep w h)^[m] cur := ih (by omega)
          _ ⊆ dilateStep w h ((dilateStep w h)^[m] cur) := subset_dilateStep _
          _ = (dilateStep w h)^[m + 1] cur := (Function.iterate_succ_apply' _ _ _).symm
      · have : k = m + 1 := by omega
        simp [this]

theorem dilate_mono_thickness {w h : ℕ} (edges : Finset (Fin (w * h))) {t1 t2 : ℕ}
    (h12 : t1 ≤ t2) : dilate w h edges t1 ⊆ dilate w h edges t2 := by
  unfold dilate
  rcases le_or_lt t1 1 with ha | ha
  · rcases le_or_lt t2 1 with hb | hb
    · simp [ha, hb]
    · rw [if_pos ha, if_neg (by omega)]
      calc edges = (dilateStep w h)^[0] edges := rfl
        _ ⊆ (dilateStep w h)^[t2 - 1] edges := subset_dilateStep_iterate _ _ _ (by omega)
  · rw [if_neg (by omega), if_neg (by omega)]
    exact subset_dilateStep_iterate _ _ _ (by omega)

/-! ## Raster lemmas -/

theorem flatMap_four_getD (l : List (Fin n)) (f : Fin n → List ℕ)
    (hf : ∀ a, (f a).length = 4) :
    ∀ (k : ℕ) (hk : k < l.length) (d : ℕ),
      (l.flatMap f).getD (4 * k) d = (f (l.get ⟨k, hk⟩)).getD 0 d := by
  induction l with
  | nil => intro k hk; simp at hk
  | cons a tl ih =>
      intro k hk d
      cases k with
      | zero =>
          rw [List.flatMap_cons, Nat.mul_zero]
          have hlen : 0 < (f a).length := by rw [hf a]; omega
          rw [List.getD_eq_getElem?_getD, List.getElem?_append_left hlen,
            ← List.getD_eq_getElem?_getD]
          rfl
      | succ k =>
          rw [List.flatMap_cons]
          have hge : (f a).length ≤ 4 * (k + 1) := by rw [hf a]; omega
          rw [List.getD_eq_getElem?_getD, List.getElem?_append_right hge,
            ← List.getD_eq_getElem?_getD, hf a]
          have h4 : 4 * (k + 1) - 4 = 4 * k := by omega
          rw [h4, ih k (by simpa using hk)]
          rfl

theorem flatMap_four_length (l : List (Fin n)) (f : Fin n → List ℕ)
    (hf : ∀ a, (f a).length = 4) : (l.flatMap f).length = 4 * l.length := by
  induction l with
  | nil => simp
  | cons a tl ih =>
      rw [List.flatMap_cons, List.length_append, hf a, ih, List.length_cons]
      omega

theorem rasterize_length (w h : ℕ) (d : Finset (Fin (w * h))) :
    (rasterize w h d).length = 4 * (w * h) := by
  rw [rasterize, flatMap_four_length _ _ (fun a => by simp), List.length_finRange]

theorem rasterize_getD (w h : ℕ) (d : Finset (Fin (w * h))) (k : ℕ) (hk : k < w * h) :
    (rasterize w h d).getD (4 * k) 255
      = if (⟨k, hk⟩ : Fin (w * h)) ∈ d then 0 else 255 := by
  rw [rasterize, flatMap_four_getD _ _ (fun a => by simp) k (by simpa using hk)]
  simp [List.get_eq_getElem]

theorem countBlack_rasterize_le {w h : ℕ} {d1 d2 : Finset (Fin (w * h))}
    (hsub : d1 ⊆ d2) :
    countBlack (rasterize w h d1) ≤ countBlack (rasterize w h d2) := by
  unfold countBlack
  rw [rasterize_length, rasterize_length, Nat.mul_div_cancel_left _ (by omega)]
  rw [← List.countP_eq_length_filter, ← List.countP_eq_length_filter]
  apply List.countP_mono_left
  intro k hk
  have hklt : k < w * h := List.mem_range.mp hk
  rw [rasterize_getD w h d1 k hklt, rasterize_getD w h d2 k hklt]
  intro h1
  by_cases hmem : (⟨k, hklt⟩ : Fin (w * h)) ∈ d1
  · simp [hsub hmem]
  · simp [hmem] at h1

/-! ## C9, C10, C5, C1 -/

/-- C9: `dilate` with `thickness = 1` is the identity: its result is the
input traced mask, pixel for pixel. -/
theorem dilate_one_id (w h : ℕ) (edges : Finset (Fin (w * h))) :
    dilate w h edges 1 = edges := by
  simp [dilate]

/-- C10: `processWithSettings` and `getDownloadDataUrl` leave the cache
unchanged: suppressed-magnitude contents, width, height and originalUrl
are identical before and after the call (phase 2 only reads the phase-1
cache; every buffer it writes is freshly allocated). -/
theorem phase2_cache_readonly (c : ProcessingCache) (o : ProcessingOptions) :
    (processWithSettings c o).cache.suppressed = c.suppressed ∧
    (processWithSettings c o).cache.width = c.width ∧
    (processWithSettings c o).cache.height = c.height ∧
    (processWithSettings c o).cache.originalUrl = c.originalUrl ∧
    (getDownloadDataUrl c o).cache.suppressed = c.suppressed ∧
    (getDownloadDataUrl c o).cache.width = c.width ∧
    (getDownloadDataUrl c o).cache.height = c.height ∧
    (getDownloadDataUrl c o).cache.originalUrl = c.originalUrl := by
  exact ⟨rfl, rfl, rfl, rfl, rfl, rfl, rfl, rfl⟩

/-- C5: for a fixed cache and sensitivity, a larger thickness never has
fewer black output pixels, and each dilation iteration produces a
superset of its input mask. -/
theorem black_count_mono_in_thickness (c : ProcessingCache) (s t1 t2 : ℕ)
    (ht1 : 1 ≤ t1) (ht12 : t1 ≤ t2) (ht2 : t2 ≤ 5) :
    countBlack (processWithSettings c ⟨s, t1⟩).raster
      ≤ countBlack (processWithSettings c ⟨s, t2⟩).raster ∧
    ∀ (w h : ℕ) (m : Finset (Fin (w * h))), m ⊆ dilateStep w h m := by
  constructor
  · exact countBlack_rasterize_le (dilate_mono_thickness _ ht12)
  · intro w h m
    exact subset_dilateStep m

/-- C5 witness. -/
theorem black_count_mono_in_thickness_witness :
    countBlack (processWithSettings ⟨[0, 0, 0, 5], 2, 2, "u"⟩ ⟨50, 1⟩).raster
      ≤ countBlack (processWithSettings ⟨[0, 0, 0, 5], 2, 2, "u"⟩ ⟨50, 3⟩).raster ∧
    ∀ (w h : ℕ) (m : Finset (Fin (w * h))), m ⊆ dilateStep w h m :=
  black_count_mono_in_thickness ⟨[0, 0, 0, 5], 2, 2, "u"⟩ 50 1 3
    (by decide) (by decide) (by decide)

/-- C1 (the code's actual behaviour on an all-zero suppressed field, the
uniform-image degenerate case): `computeThresholds` does return
`low = high = 0`, but `hysteresis` then classifies every pixel —
`mag[i] >= high` is `0 >= 0` — as strong, so the traced mask is full and
`processWithSettings` renders every pixel black, not white. -/
theorem uniform_cache_renders_black :
    computeThresholds (List.replicate 9 0) 50 = (0, 0) ∧
    hysteresis (List.replicate 9 0) 3 3 0 0 = (Finset.univ : Finset (Fin (3 * 3))) ∧
    countBlack (processWithSettings ⟨List.replicate 9 0, 3, 3, "img"⟩ ⟨50, 1⟩).raster
      = 9 ∧
    (processWithSettings ⟨List.replicate 9 0, 3, 3, "img"⟩ ⟨50, 1⟩).raster.getD 0 255
      = 0 := by
  decide

/-! ## C8: a zero target count turns everything strong -/

theorem maxfold_acc_le (l : List ℚ) :
    ∀ acc : ℚ, acc ≤ l.foldl (fun m v => if 0 < v then (if m < v then v else m) else m) acc := by
  induction l with
  | nil => intro acc; exact le_refl _
  | cons a tl ih =>
      intro acc
      rw [List.foldl_cons]
      refine le_trans ?_ (ih _)
      split_ifs with h1 h2
      · exact le_of_lt h2
      · exact le_refl _
      · exact le_refl _

theorem maxfold_ge_elem (l : List ℚ) :
    ∀ (acc v : ℚ), v ∈ l → 0 < v →
      v ≤ l.foldl (fun m v => if 0 < v then (if m < v then v else m) else m) acc := by
  induction l with
  | nil => intro acc v hv _; exact absurd hv (List.not_mem_nil v)
  | cons a tl ih =>
      intro acc v hv hpos
      rw [List.foldl_cons]
      rcases List.mem_cons.mp hv with rfl | hvtl
      · refine le_trans ?_ (maxfold_acc_le tl _)
        rw [if_pos hpos]
        split_ifs with h2
        · exact le_refl _
        · exact le_of_not_lt h2
      · exact ih _ v hvtl hpos

theorem le_maxMagOf {mag : List ℚ} {v : ℚ} (hv : v ∈ mag) (hpos : 0 < v) :
    v ≤ maxMagOf mag := by
  rw [maxMagOf]
  exact maxfold_ge_elem mag 0 v hv hpos

theorem maxMagOf_nonneg (mag : List ℚ) : 0 ≤ maxMagOf mag :=
  maxfold_acc_le mag 0

theorem nonzeroCount_ne_zero {mag : List ℚ} (hpos : ∃ v ∈ mag, 0 < v) :
    nonzeroCount mag ≠ 0 := by
  rcases hpos with ⟨v, hv, hvpos⟩
  have hmem : v ∈ mag.filter (fun v => decide (0 < v)) :=
    List.mem_filter.mpr ⟨hv, by simpa using hvpos⟩
  have hlen : 0 < (mag.filter (fun v => decide (0 < v))).length :=
    List.length_pos.mpr (List.ne_nil_of_mem hmem)
  rw [nonzeroCount]
  omega

/-- One unfolding of the cumulative-walk loop. -/
theorem findHighBinAux_succ (hist : ℕ → ℕ) (t : ℤ) (r i : ℕ) (cum : ℤ) :
    findHighBinAux hist t (r + 1) i cum
      = if t ≤ cum + (hist i : ℤ) then i
        else findHighBinAux hist t r (i + 1) (cum + (hist i : ℤ)) := rfl

theorem findHighBin_of_nonpos (hist : ℕ → ℕ) {t : ℤ} (ht : t ≤ 0) :
    findHighBin hist t = 0 := by
  have h256 : (256 : ℕ) = 255 + 1 := rfl
  rw [findHighBin, h256, findHighBinAux_succ]
  rw [if_pos (by have : (0 : ℤ) ≤ (hist 0 : ℤ) := Int.natCast_nonneg _; omega)]

theorem computeThresholds_of_target_nonpos (mag : List ℚ) (s : ℕ)
    (ht : targetCount mag s ≤ 0) : computeThresholds mag s = (0, 0) := by
  rw [computeThresholds]
  split_ifs with hb
  · rfl
  · rw [findHighBin_of_nonpos _ ht]
    norm_num

theorem getD_nonneg {l : List ℚ} (hnn : ∀ v ∈ l, 0 ≤ v) (i : ℕ) :
    0 ≤ l.getD i 0 := by
  rw [List.getD_eq_getElem?_getD]
  cases hc : l[i]? with
  | none => simp
  | some v =>
      have hv : v ∈ l := List.getElem?_mem hc
      simpa using hnn v hv

theorem strongB_zero_high {mag : List ℚ} (hnn : ∀ v ∈ mag, 0 ≤ v) (i : ℕ) :
    strongB mag 0 i = true := by
  rw [strongB, decide_eq_true_eq]
  exact getD_nonneg hnn i

theorem bfsGo_supset {n : ℕ} (wk : Fin n → Bool) (nb : Fin n → List (Fin n)) :
    ∀ (fuel : ℕ) (q : List (Fin n)) (visited : Finset (Fin n)),
      visited ⊆ bfsGo wk nb fuel q visited := by
  intro fuel
  induction fuel with
  | zero => intro q visited; rw [bfsGo]
  | succ fuel ih =>
      intro q visited
      cases q with
      | nil => rw [bfsGo]
      | cons i rest =>
          rw [bfsGo]
          exact Finset.Subset.trans Finset.subset_union_left (ih _ _)

theorem hysteresis_all_strong {mag : List ℚ} (hnn : ∀ v ∈ mag, 0 ≤ v) (w h : ℕ) :
    hysteresis mag w h 0 0 = Finset.univ := by
  rw [hysteresis]
  have hseeds : (List.finRange (w * h)).filter (fun i => strongB mag 0 i.val)
      = List.finRange (w * h) :=
    List.filter_eq_self.mpr (fun a _ => strongB_zero_high hnn a.val)
  simp only [hseeds, List.toFinset_finRange]
  apply Finset.Subset.antisymm (Finset.subset_univ _)
  exact bfsGo_supset (fun j : Fin (w * h) => weakB mag 0 0 j.val) (nbrs w h)
    (10 * (w * h)) (List.finRange (w * h)) Finset.univ

theorem dilateStep_univ (w h : ℕ) : dilateStep w h Finset.univ = Finset.univ :=
  Finset.Subset.antisymm (Finset.subset_univ _) (subset_dilateStep _)

theorem dilate_univ (w h t : ℕ) : dilate w h Finset.univ t = Finset.univ := by
  rw [dilate]
  split_ifs with hb
  · rfl
  · exact Function.iterate_fixed (dilateStep_univ w h) _

theorem countBlack_rasterize_univ (w h : ℕ) :
    countBlack (rasterize w h Finset.univ) = w * h := by
  rw [countBlack, rasterize_length, Nat.mul_div_cancel_left _ (by omega)]
  have hall : ∀ k ∈ List.range (w * h),
      (decide ((rasterize w h Finset.univ).getD (4 * k) 255 = 0)) = true := by
    intro k hk
    have hklt : k < w * h := List.mem_range.mp hk
    rw [rasterize_getD w h Finset.univ k hklt]
    simp
  rw [List.filter_eq_self.mpr hall, List.length_range]

/-- C8: for a suppressed-magnitude field with at least one nonzero value,
if `Math.floor(percentile * count) = 0` then `computeThresholds` returns
`low = high = 0`, `hysteresis` classifies every pixel (zero-magnitude
ones included) as strong so the whole mask is set, and
`processWithSettings` renders every pixel black.  At `sensitivity = 100`
(`percentile = 0.1`) this happens whenever fewer than 10 pixels have
nonzero magnitude. -/
theorem zero_target_all_strong_black (mag : List ℚ) (w h s t : ℕ) (u : String)
    (hnn : ∀ v ∈ mag, 0 ≤ v) (hpos : ∃ v ∈ mag, 0 < v)
    (htarget : targetCount mag s = 0) :
    computeThresholds mag s = (0, 0) ∧
    hysteresis mag w h 0 0 = Finset.univ ∧
    countBlack (processWithSettings ⟨mag, w, h, u⟩ ⟨s, t⟩).raster = w * h ∧
    (nonzeroCount mag < 10 → targetCount mag 100 = 0) := by
  have hct : computeThresholds mag s = (0, 0) :=
    computeThresholds_of_target_nonpos mag s (le_of_eq htarget)
  have hhys : hysteresis mag w h 0 0 = Finset.univ := hysteresis_all_strong hnn w h
  refine ⟨hct, hhys, ?_, ?_⟩
  · rw [processWithSettings]
    simp only [hct, hhys, dilate_univ]
    exact countBlack_rasterize_univ w h
  · intro hlt
    rw [targetCount]
    have hp : percentile 100 = 1 / 10 := by rw [percentile]; norm_num
    rw [hp, Int.floor_eq_zero_iff]
    constructor
    · positivity
    · rw [div_mul_eq_mul_div, one_mul, div_lt_one (by norm_num)]
      exact_mod_cast hlt

/-- C8 witness. -/
theorem zero_target_all_strong_black_witness :
    computeThresholds [3, 0, 0, 0] 100 = (0, 0) ∧
    hysteresis [3, 0, 0, 0] 2 2 0 0 = Finset.univ ∧
    countBlack (processWithSettings ⟨[3, 0, 0, 0], 2, 2, "u"⟩ ⟨100, 1⟩).raster = 2 * 2 ∧
    (nonzeroCount [3, 0, 0, 0] < 10 → targetCount [3, 0, 0, 0] 100 = 0) :=
  zero_target_all_strong_black [3, 0, 0, 0] 2 2 100 1 "u"
    (by decide) (by decide)
    (by norm_num [targetCount, percentile, nonzeroCount, List.filter])

/-! ## C4: the cumulative-walk characterisation and sensitivity monotonicity -/

theorem findHighBinAux_zero (hist : ℕ → ℕ) (t : ℤ) (i : ℕ) (cum : ℤ) :
    findHighBinAux hist t 0 i cum = 255 := rfl

/-- What the cumulative walk computes: the first bin whose cumulative
count reaches the target, or `255` if no bin does. -/
theorem findHighBinAux_spec (hist : ℕ → ℕ) (t : ℤ) :
    ∀ (r i : ℕ) (cum : ℤ), i + r = 256 →
      cum = ∑ j ∈ Finset.range i, (hist j : ℤ) →
      (∀ j, j < i → cumHist hist j < t) →
      findHighBinAux hist t r i cum ≤ 255 ∧
        ((t ≤ cumHist hist (findHighBinAux hist t r i cum) ∧
          ∀ j, j < findHighBinAux hist t r i cum → cumHist hist j < t)
         ∨ (findHighBinAux hist t r i cum = 255 ∧
            ∀ j, j < 256 → cumHist hist j < t)) := by
  intro r
  induction r with
  | zero =>
      intro i cum hi _ hinv
      rw [findHighBinAux_zero]
      exact ⟨le_refl _, Or.inr ⟨rfl, fun j hj => hinv j (by omega)⟩⟩
  | succ r ih =>
      intro i cum hi hcum hinv
      rw [findHighBinAux_succ]
      have hcumi : cum + (hist i : ℤ) = cumHist hist i := by
        rw [cumHist, Finset.sum_range_succ, hcum]
      split_ifs with hstop
      · refine ⟨by omega, Or.inl ⟨?_, hinv⟩⟩
        rw [← hcumi]
        exact hstop
      · refine ih (i + 1) (cum + (hist i : ℤ)) (by omega)
          (by rw [Finset.sum_range_succ, hcum]) ?_
        intro j hj
        rcases Nat.lt_or_ge j i with hji | hji
        · exact hinv j hji
        · have hj : j = i := by omega
          rw [hj, ← hcumi]
          omega

theorem findHighBin_spec (hist : ℕ → ℕ) (t : ℤ) :
    findHighBin hist t ≤ 255 ∧
      ((t ≤ cumHist hist (findHighBin hist t) ∧
        ∀ j, j < findHighBin hist t → cumHist hist j < t)
       ∨ (findHighBin hist t = 255 ∧ ∀ j, j < 256 → cumHist hist j < t)) := by
  rw [findHighBin]
  exact findHighBinAux_spec hist t 256 0 0 (by omega) (by simp) (by omega)

theorem findHighBin_mono (hist : ℕ → ℕ) {t1 t2 : ℤ} (h : t2 ≤ t1) :
    findHighBin hist t2 ≤ findHighBin hist t1 := by
  obtain ⟨hle1, hc1⟩ := findHighBin_spec hist t1
  obtain ⟨hle2, hc2⟩ := findHighBin_spec hist t2
  rcases hc1 with ⟨hr1, _⟩ | ⟨he1, _⟩
  · rcases hc2 with ⟨_, hm2⟩ | ⟨he2, hall2⟩
    · by_contra hlt
      push_neg at hlt
      have := hm2 _ hlt
      omega
    · have := hall2 (findHighBin hist t1) (by omega)
      omega
  · omega

theorem percentile_anti {s1 s2 : ℕ} (h : s1 ≤ s2) : percentile s2 ≤ percentile s1 := by
  rw [percentile, percentile]
  have hc : (s1 : ℚ) ≤ (s2 : ℚ) := by exact_mod_cast h
  linarith

theorem targetCount_anti (mag : List ℚ) {s1 s2 : ℕ} (h : s1 ≤ s2) :
    targetCount mag s2 ≤ targetCount mag s1 := by
  rw [targetCount, targetCount]
  exact Int.floor_le_floor
    (mul_le_mul_of_nonneg_right (percentile_anti h) (Nat.cast_nonneg _))

theorem computeThresholds_eq_of_pos (mag : List ℚ) (s : ℕ)
    (hpos : ∃ v ∈ mag, 0 < v) :
    computeThresholds mag s
      = (((findHighBin (histogram mag (maxMagOf mag)) (targetCount mag s) : ℚ) / 255)
          * maxMagOf mag * (2 / 5),
         ((findHighBin (histogram mag (maxMagOf mag)) (targetCount mag s) : ℚ) / 255)
          * maxMagOf mag) := by
  have hc1 : nonzeroCount mag ≠ 0 := nonzeroCount_ne_zero hpos
  have hc2 : maxMagOf mag ≠ 0 := by
    rcases hpos with ⟨v, hv, hvpos⟩
    exact (lt_of_lt_of_le hvpos (le_maxMagOf hv hvpos)).ne'
  simp only [computeThresholds]
  rw [if_neg (by push_neg; exact ⟨hc1, hc2⟩)]

theorem countAtLeast_anti (mag : List ℚ) {t t' : ℚ} (h : t' ≤ t) :
    countAtLeast mag t ≤ countAtLeast mag t' := by
  rw [countAtLeast, countAtLeast, ← List.countP_eq_length_filter,
    ← List.countP_eq_length_filter]
  apply List.countP_mono_left
  intro v _ hv
  simp only [decide_eq_true_eq] at hv ⊢
  exact le_trans h hv

/-- C4: for a fixed suppressed-magnitude field, raising the sensitivity
never lowers the number of pixels at or above the derived low
threshold. -/
theorem low_threshold_count_mono (mag : List ℚ) (s1 s2 : ℕ)
    (hs1 : 1 ≤ s1) (h12 : s1 ≤ s2) (hs2 : s2 ≤ 100) :
    countAtLeast mag (computeThresholds mag s1).1
      ≤ countAtLeast mag (computeThresholds mag s2).1 := by
  by_cases hpos : ∃ v ∈ mag, 0 < v
  · rw [computeThresholds_eq_of_pos mag s1 hpos, computeThresholds_eq_of_pos mag s2 hpos]
    apply countAtLeast_anti
    have hbm : findHighBin (histogram mag (maxMagOf mag)) (targetCount mag s2)
        ≤ findHighBin (histogram mag (maxMagOf mag)) (targetCount mag s1) :=
      findHighBin_mono _ (targetCount_anti mag h12)
    have hcast : ((findHighBin (histogram mag (maxMagOf mag)) (targetCount mag s2) : ℕ) : ℚ)
        ≤ ((findHighBin (histogram mag (maxMagOf mag)) (targetCount mag s1) : ℕ) : ℚ) :=
      Nat.cast_le.mpr hbm
    have hdiv := (div_le_div_right (by norm_num : (0:ℚ) < 255)).mpr hcast
    have hmul := mul_le_mul_of_nonneg_right hdiv (maxMagOf_nonneg mag)
    exact mul_le_mul_of_nonneg_right hmul (by norm_num)
  · have hcnt : nonzeroCount mag = 0 := by
      push_neg at hpos
      rw [nonzeroCount, List.length_eq_zero]
      rw [List.filter_eq_nil]
      intro a ha
      simpa using hpos a ha
    simp only [computeThresholds, hcnt]
    exact le_refl _

/-- C4 witness. -/
theorem low_threshold_count_mono_witness :
    countAtLeast [1000, 1, 1, 1] (computeThresholds [1000, 1, 1, 1] 1).1
      ≤ countAtLeast [1000, 1, 1, 1] (computeThresholds [1000, 1, 1, 1] 100).1 :=
  low_threshold_count_mono [1000, 1, 1, 1] 1 100 (by decide) (by decide) (by decide)

/-! ## C2: what the high threshold actually is -/

/-- C2 counterexample: the claim says the high threshold is the first
reached bin's UPPER bound `((bin + 1) / 255) * maxMag`.  On the field
`[1000, 1, 1, 1]` at sensitivity 50 the walk stops at bin 0 (its three
small values land there and the target count is 2), so the code returns
the LOWER bound `(0 / 255) * 1000 = 0`, while the claim's formula gives
`(1 / 255) * 1000 = 200 / 51`. -/
theorem computeThresholds_upper_bound_counterexample :
    (computeThresholds [1000, 1, 1, 1] 50).2 = 0 ∧
    claimHighUpper [1000, 1, 1, 1] 50 = 200 / 51 ∧
    (computeThresholds [1000, 1, 1, 1] 50).2 ≠ claimHighUpper [1000, 1, 1, 1] 50 := by
  have hmax : maxMagOf [1000, 1, 1, 1] = 1000 := by decide
  have hcnt : nonzeroCount [1000, 1, 1, 1] = 4 := by decide
  have htarget : targetCount [1000, 1, 1, 1] 50 = 2 := by
    rw [targetCount, hcnt, percentile]; norm_num
  have hhist0 : histogram [1000, 1, 1, 1] 1000 0 = 3 := by
    norm_num [histogram, binOf, List.filter]
  have hfind : findHighBin (histogram [1000, 1, 1, 1] 1000) 2 = 0 := by
    rw [findHighBin, show (256:ℕ) = 255 + 1 from rfl, findHighBinAux_succ, if_pos]
    rw [hhist0]; norm_num
  have hct : (computeThresholds [1000, 1, 1, 1] 50).2 = 0 := by
    rw [computeThresholds_eq_of_pos _ _ ⟨1000, by simp, by norm_num⟩]
    rw [hmax, htarget, hfind]
    norm_num
  have hupper : claimHighUpper [1000, 1, 1, 1] 50 = 200 / 51 := by
    rw [claimHighUpper, claimFirstBin]
    rw [show (256:ℕ) = 255 + 1 from rfl, List.range_succ_eq_map]
    rw [List.find?_cons_of_pos _ (by
      rw [decide_eq_true_eq, Finset.sum_range_one, hmax, hhist0, hcnt, percentile]
      norm_num)]
    rw [hmax]
    norm_num
  exact ⟨hct, hupper, by rw [hct, hupper]; norm_num⟩

/-- C2 (amended): for every field with a nonzero magnitude and any
sensitivity, `computeThresholds` histograms the nonzero magnitudes
normalised by their maximum into 256 bins, targets
`floor(percentile * count)` with `percentile = 1 - (s/100)*0.9`, walks
the histogram to the first bin whose cumulative count reaches the
target (255 if none does), and returns as the high threshold that bin's
LOWER bound rescaled to magnitude units, `high = (bin / 255) * maxMag`,
with `low = 0.4 * high`. -/
theorem computeThresholds_high_first_bin_lower_bound (mag : List ℚ) (s : ℕ)
    (hs1 : 1 ≤ s) (hs2 : s ≤ 100) (hpos : ∃ v ∈ mag, 0 < v) :
    ∃ hb : ℕ,
      computeThresholds mag s
        = (((hb : ℚ) / 255) * maxMagOf mag * (2 / 5),
           ((hb : ℚ) / 255) * maxMagOf mag) ∧
      hb ≤ 255 ∧
      ((targetCount mag s ≤ cumHist (histogram mag (maxMagOf mag)) hb ∧
        ∀ j, j < hb → cumHist (histogram mag (maxMagOf mag)) j < targetCount mag s)
       ∨ (hb = 255 ∧
          ∀ j, j < 256 → cumHist (histogram mag (maxMagOf mag)) j < targetCount mag s)) := by
  refine ⟨findHighBin (histogram mag (maxMagOf mag)) (targetCount mag s),
    computeThresholds_eq_of_pos mag s hpos, ?_, ?_⟩
  · exact (findHighBin_spec (histogram mag (maxMagOf mag)) (targetCount mag s)).1
  · exact (findHighBin_spec (histogram mag (maxMagOf mag)) (targetCount mag s)).2

/-- C2 witness for the amended statement. -/
theorem computeThresholds_high_first_bin_lower_bound_witness :
    ∃ hb : ℕ,
      computeThresholds [1000, 1, 1, 1] 50
        = (((hb : ℚ) / 255) * maxMagOf [1000, 1, 1, 1] * (2 / 5),
           ((hb : ℚ) / 255) * maxMagOf [1000, 1, 1, 1]) ∧
      hb ≤ 255 ∧
      ((targetCount [1000, 1, 1, 1] 50
          ≤ cumHist (histogram [1000, 1, 1, 1] (maxMagOf [1000, 1, 1, 1])) hb ∧
        ∀ j, j < hb →
          cumHist (histogram [1000, 1, 1, 1] (maxMagOf [1000, 1, 1, 1])) j
            < targetCount [1000, 1, 1, 1] 50)
       ∨ (hb = 255 ∧
          ∀ j, j < 256 →
            cumHist (histogram [1000, 1, 1, 1] (maxMagOf [1000, 1, 1, 1])) j
              < targetCount [1000, 1, 1, 1] 50)) :=
  computeThresholds_high_first_bin_lower_bound [1000, 1, 1, 1] 50
    (by decide) (by decide) ⟨1000, by simp, by norm_num⟩

/-! ## C3: hysteresis computes exactly the strong-or-connected-weak set -/

theorem strongB_iff (mag : List ℚ) (high : ℚ) {n : ℕ} (i : Fin n) :
    strongB mag high i.val = true ↔ strongAt mag high i := by
  simp [strongB, strongAt]

theorem weakB_iff (mag : List ℚ) (low high : ℚ) {n : ℕ} (i : Fin n) :
    weakB mag low high i.val = true ↔ weakAt mag low high i := by
  simp only [weakB, strongB, weakAt, Bool.and_eq_true, Bool.not_eq_true',
    decide_eq_false_iff_not, decide_eq_true_eq, not_le]
  tauto

theorem bfsGo_zero {n : ℕ} (wk : Fin n → Bool) (nb : Fin n → List (Fin n))
    (q : List (Fin n)) (v : Finset (Fin n)) : bfsGo wk nb 0 q v = v := rfl

theorem bfsGo_nil {n : ℕ} (wk : Fin n → Bool) (nb : Fin n → List (Fin n))
    (fuel : ℕ) (v : Finset (Fin n)) : bfsGo wk nb (fuel + 1) [] v = v := rfl

theorem bfsGo_cons {n : ℕ} (wk : Fin n → Bool) (nb : Fin n → List (Fin n))
    (fuel : ℕ) (a : Fin n) (rest : List (Fin n)) (v : Finset (Fin n)) :
    bfsGo wk nb (fuel + 1) (a :: rest) v
      = bfsGo wk nb fuel
          (rest ++ (nb a).filter (fun j => wk j && decide (j ∉ v)))
          (v ∪ ((nb a).filter (fun j => wk j && decide (j ∉ v))).toFinset) := rfl

set_option maxHeartbeats 1000000 in
/-- The in-bounds neighbour list is exactly claim-style 8-adjacency. -/
theorem mem_nbrs_iff {w h : ℕ} {i j : Fin (w * h)} :
    j ∈ nbrs w h i ↔ Adj w h i j := by
  have hw : 0 < w := w_pos_of_fin i
  rw [nbrs, mem_nbhdList, Adj]
  constructor
  · rintro ⟨d, hd, hx, hy⟩
    have hval_i := Nat.div_add_mod i.val w
    have hval_j := Nat.div_add_mod j.val w
    refine ⟨?_, ?_, ?_⟩
    · intro hij
      rw [hij] at hx hy
      have hd2 : d.2 = 0 := by omega
      have hd1 : d.1 = 0 := by omega
      simp only [offsets8, List.mem_cons, List.not_mem_nil, or_false] at hd
      rcases hd with hd | hd | hd | hd | hd | hd | hd | hd <;>
        (rw [Prod.ext_iff] at hd; simp only [] at hd; omega)
    · simp only [offsets8, List.mem_cons, List.not_mem_nil, or_false] at hd
      rcases hd with hd | hd | hd | hd | hd | hd | hd | hd <;>
        (rw [Prod.ext_iff] at hd; simp only [] at hd; omega)
    · simp only [offsets8, List.mem_cons, List.not_mem_nil, or_false] at hd
      rcases hd with hd | hd | hd | hd | hd | hd | hd | hd <;>
        (rw [Prod.ext_iff] at hd; simp only [] at hd; omega)
  · rintro ⟨hne, hdx, hdy⟩
    refine ⟨(((j.val / w : ℕ) : ℤ) - ((i.val / w : ℕ) : ℤ),
            ((j.val % w : ℕ) : ℤ) - ((i.val % w : ℕ) : ℤ)), ?_, by ring, by ring⟩
    have hnz : ¬(((j.val % w : ℕ) : ℤ) - ((i.val % w : ℕ) : ℤ) = 0 ∧
        ((j.val / w : ℕ) : ℤ) - ((i.val / w : ℕ) : ℤ) = 0) := by
      rintro ⟨hz1, hz2⟩
      apply hne
      apply Fin.ext
      have h1 : i.val % w = j.val % w := by omega
      have h2 : i.val / w = j.val / w := by omega
      calc i.val = w * (i.val / w) + i.val % w := (Nat.div_add_mod _ _).symm
        _ = w * (j.val / w) + j.val % w := by rw [h1, h2]
        _ = j.val := Nat.div_add_mod _ _
    simp only [offsets8, List.mem_cons, List.not_mem_nil, or_false, Prod.mk.injEq]
    omega

theorem reachFrom_mono {n : ℕ} (nb : Fin n → List (Fin n)) (wk : Fin n → Bool)
    {a b : Finset (Fin n)} (hab : a ⊆ b) {i : Fin n}
    (hr : ReachFrom nb wk a i) : ReachFrom nb wk b i := by
  induction hr with
  | seed hs => exact ReachFrom.seed (hab hs)
  | step _ hnb hwk ih => exact ReachFrom.step ih hnb hwk

theorem reachFrom_absorb {n : ℕ} (nb : Fin n → List (Fin n)) (wk : Fin n → Bool)
    {a extra : Finset (Fin n)} (hextra : ∀ j ∈ extra, ReachFrom nb wk a j)
    {i : Fin n} (hr : ReachFrom nb wk (a ∪ extra) i) : ReachFrom nb wk a i := by
  induction hr with
  | seed hs =>
      rcases Finset.mem_union.mp hs with hs | hs
      · exact ReachFrom.seed hs
      · exact hextra _ hs
  | step _ hnb hwk ih => exact ReachFrom.step ih hnb hwk

theorem reachFrom_subset_of_closed {n : ℕ} (nb : Fin n → List (Fin n))
    (wk : Fin n → Bool) {v : Finset (Fin n)}
    (hcl : ∀ k ∈ v, ∀ j ∈ nb k, wk j = true → j ∈ v)
    {i : Fin n} (hr : ReachFrom nb wk v i) : i ∈ v := by
  induction hr with
  | seed hs => exact hs
  | step _ hnb hwk ih => exact hcl _ ih _ hnb hwk

/-- Invariant-based correctness of the BFS loop: provided the fuel
dominates `9·|unvisited| + |queue|`, every queued pixel is already
visited, and every fully-processed pixel's weak neighbours are visited,
the loop computes exactly the pixels reachable from the visited set. -/
theorem bfsGo_mem_iff {n : ℕ} (wk : Fin n → Bool) (nb : Fin n → List (Fin n))
    (hnb : ∀ a, (nb a).length ≤ 8) :
    ∀ (fuel : ℕ) (queue : List (Fin n)) (visited : Finset (Fin n)),
      9 * (Finset.univ \ visited).card + queue.length ≤ fuel →
      (∀ j ∈ queue, j ∈ visited) →
      (∀ k ∈ visited, k ∉ queue → ∀ j ∈ nb k, wk j = true → j ∈ visited) →
      ∀ i, (i ∈ bfsGo wk nb fuel queue visited ↔ ReachFrom nb wk visited i) := by
  intro fuel
  induction fuel with
  | zero =>
      intro queue visited hfuel hq hcl i
      have hqe : queue = [] := by
        cases queue with
        | nil => rfl
        | cons a r => rw [List.length_cons] at hfuel; omega
      subst hqe
      rw [bfsGo_zero]
      constructor
      · exact fun hv => ReachFrom.seed hv
      · exact fun hr => reachFrom_subset_of_closed nb wk
          (fun k hk j hj hwk => hcl k hk (List.not_mem_nil k) j hj hwk) hr
  | succ fuel ih =>
      intro queue visited hfuel hq hcl i
      cases queue with
      | nil =>
          rw [bfsGo_nil]
          constructor
          · exact fun hv => ReachFrom.seed hv
          · exact fun hr => reachFrom_subset_of_closed nb wk
              (fun k hk j hj hwk => hcl k hk (List.not_mem_nil k) j hj hwk) hr
      | cons a rest =>
          rw [bfsGo_cons]
          set new := (nb a).filter (fun j => wk j && decide (j ∉ visited)) with hnew_def
          have hnew_mem : ∀ j ∈ new, j ∈ nb a ∧ wk j = true ∧ j ∉ visited := by
            intro j hj
            have hfilt := List.mem_filter.mp hj
            have hand := hfilt.2
            rw [Bool.and_eq_true] at hand
            exact ⟨hfilt.1, hand.1, by simpa using hand.2⟩
          have ha_vis : a ∈ visited := hq a (List.mem_cons_self a rest)
          have hreach_new : ∀ j ∈ new.toFinset, ReachFrom nb wk visited j := by
            intro j hj
            obtain ⟨hjnb, hjwk, _⟩ := hnew_mem j (List.mem_toFinset.mp hj)
            exact ReachFrom.step (ReachFrom.seed ha_vis) hjnb hjwk
          have hsub : new.toFinset ⊆ Finset.univ \ visited := by
            intro j hj
            obtain ⟨_, _, hnv⟩ := hnew_mem j (List.mem_toFinset.mp hj)
            exact Finset.mem_sdiff.mpr ⟨Finset.mem_univ j, hnv⟩
          have hcard : (Finset.univ \ (visited ∪ new.toFinset)).card + new.toFinset.card
              = (Finset.univ \ visited).card := by
            have hset : Finset.univ \ (visited ∪ new.toFinset)
                = (Finset.univ \ visited) \ new.toFinset := by
              ext x
              simp only [Finset.mem_sdiff, Finset.mem_union, Finset.mem_univ, true_and]
              tauto
            rw [hset, Finset.card_sdiff hsub]
            have hle := Finset.card_le_card hsub
            omega
          have hlen_new : new.length ≤ 8 :=
            le_trans (List.length_filter_le _ _) (hnb a)
          have hfuel' : 9 * (Finset.univ \ (visited ∪ new.toFinset)).card
              + (rest ++ new).length ≤ fuel := by
            rw [List.length_append]
            rw [List.length_cons] at hfuel
            cases hn : new with
            | nil =>
                rw [hn] at hcard
                simp only [List.toFinset_nil, List.length_nil] at hcard ⊢
                omega
            | cons b l =>
                have hbpos : 1 ≤ new.toFinset.card := by
                  apply Finset.card_pos.mpr
                  exact ⟨b, List.mem_toFinset.mpr (by rw [hn]; exact List.mem_cons_self b l)⟩
                have hlen : new.length = l.length + 1 := by rw [hn]; rfl
                rw [← hn] at *
                omega
          have hq' : ∀ j ∈ rest ++ new, j ∈ visited ∪ new.toFinset := by
            intro j hj
            rcases List.mem_append.mp hj with hj | hj
            · exact Finset.mem_union_left _ (hq j (List.mem_cons_of_mem a hj))
            · exact Finset.mem_union_right _ (List.mem_toFinset.mpr hj)
          have hcl' : ∀ k ∈ visited ∪ new.toFinset, k ∉ rest ++ new →
              ∀ j ∈ nb k, wk j = true → j ∈ visited ∪ new.toFinset := by
            intro k hk hknot j hj hwk
            by_cases hka : k = a
            · subst hka
              by_cases hjv : j ∈ visited
              · exact Finset.mem_union_left _ hjv
              · refine Finset.mem_union_right _ (List.mem_toFinset.mpr ?_)
                rw [hnew_def]
                exact List.mem_filter.mpr
                  ⟨hj, by rw [Bool.and_eq_true]; exact ⟨hwk, by simpa using hjv⟩⟩
            · rcases Finset.mem_union.mp hk with hkv | hkn
              · have hknotq : k ∉ a :: rest := by
                  intro hmem
                  rcases List.mem_cons.mp hmem with hcase | hcase
                  · exact hka hcase
                  · exact hknot (List.mem_append.mpr (Or.inl hcase))
                exact Finset.mem_union_left _ (hcl k hkv hknotq j hj hwk)
              · exact absurd
                  (List.mem_append.mpr (Or.inr (List.mem_toFinset.mp hkn))) hknot
          rw [ih (rest ++ new) (visited ∪ new.toFinset) hfuel' hq' hcl' i]
          constructor
          · exact fun hr => reachFrom_absorb nb wk hreach_new hr
          · exact fun hr => reachFrom_mono nb wk Finset.subset_union_left hr

theorem hysteresis_mem_reachFrom (mag : List ℚ) (w h : ℕ) (low high : ℚ)
    (i : Fin (w * h)) :
    i ∈ hysteresis mag w h low high ↔
      ReachFrom (nbrs w h) (fun j => weakB mag low high j.val)
        ((List.finRange (w * h)).filter (fun k => strongB mag high k.val)).toFinset i := by
  simp only [hysteresis]
  apply bfsGo_mem_iff
  · intro a
    rw [nbrs, nbhdList]
    exact le_trans (List.length_filterMap_le _ _) (by rw [offsets8]; rfl)
  · have h1 : (Finset.univ
        \ ((List.finRange (w * h)).filter (fun k => strongB mag high k.val)).toFinset).card
        ≤ w * h := by
      refine le_trans (Finset.card_le_card Finset.sdiff_subset) ?_
      rw [Finset.card_univ]
      simp
    have h2 : ((List.finRange (w * h)).filter (fun k => strongB mag high k.val)).length
        ≤ w * h := by
      refine le_trans (List.length_filter_le _ _) ?_
      rw [List.length_finRange]
    omega
  · intro j hj
    exact List.mem_toFinset.mpr hj
  · intro k hk hknot
    exact absurd (List.mem_toFinset.mp hk) hknot

theorem mem_seeds_iff (mag : List ℚ) (high : ℚ) {w h : ℕ} (i : Fin (w * h)) :
    i ∈ ((List.finRange (w * h)).filter (fun k => strongB mag high k.val)).toFinset
      ↔ strongAt mag high i := by
  rw [List.mem_toFinset, List.mem_filter]
  simp [List.mem_finRange, strongB_iff]

/-- C3: the hysteresis mask contains a pixel iff it is strong
(`mag ≥ high`), or weak (`low ≤ mag < high`) and reachable from some
strong pixel through a chain of 8-connected weak-or-strong pixels. -/
theorem hysteresis_mem_iff (mag : List ℚ) (w h : ℕ) (low high : ℚ)
    (i : Fin (w * h)) :
    i ∈ hysteresis mag w h low high ↔
      strongAt mag high i ∨
        (weakAt mag low high i ∧ ReachableFromStrong mag low high w h i) := by
  rw [hysteresis_mem_reachFrom]
  constructor
  · intro hr
    induction hr with
    | seed hs => exact Or.inl ((mem_seeds_iff mag high _).mp hs)
    | @step a b hra hnbm hwk ih =>
        have hwb : weakAt mag low high b := (weakB_iff mag low high b).mp hwk
        have hadj : Adj w h a b := mem_nbrs_iff.mp hnbm
        refine Or.inr ⟨hwb, ?_⟩
        rcases ih with hs | ⟨_, s, hss, hrtg⟩
        · exact ⟨a, hs, Relation.ReflTransGen.single ⟨hadj, Or.inr hwb⟩⟩
        · exact ⟨s, hss, hrtg.tail ⟨hadj, Or.inr hwb⟩⟩
  · intro hcase
    rcases hcase with hs | ⟨hw, s, hss, hrtg⟩
    · exact ReachFrom.seed ((mem_seeds_iff mag high i).mpr hs)
    · clear hw
      induction hrtg with
      | refl => exact ReachFrom.seed ((mem_seeds_iff mag high s).mpr hss)
      | tail hprev hstep ih =>
          obtain ⟨hadj, hws⟩ := hstep
          rcases hws with hstrong | hweak
          · exact ReachFrom.seed ((mem_seeds_iff mag high _).mpr hstrong)
          · exact ReachFrom.step ih (mem_nbrs_iff.mpr hadj)
              ((weakB_iff mag low high _).mpr hweak)

/-! ## C6, C7: non-maximum suppression and boundary safety -/

theorem flat_mod {x y w : ℕ} (hx : x < w) : (y * w + x) % w = x := by
  rw [Nat.mul_comm, Nat.mul_add_mod, Nat.mod_eq_of_lt hx]

theorem flat_div {x y w : ℕ} (hx : x < w) : (y * w + x) / w = y := by
  rw [Nat.mul_comm, Nat.mul_add_div (by omega), Nat.div_eq_of_lt hx, Nat.add_zero]

/-- C6: at every interior pixel, `nonMaxSuppression` leaves a
zero-magnitude pixel at zero, keeps the magnitude exactly when it is
`≥` both neighbours along the quantised orientation (so ties are kept),
and zeroes it otherwise. -/
theorem nms_local_max_characterization (mag dir : ℕ → ℝ) (w h x y : ℕ)
    (hx1 : 1 ≤ x) (hx2 : x < w - 1) (hy1 : 1 ≤ y) (hy2 : y < h - 1) :
    (mag (y * w + x) = 0 → nonMaxSuppression mag dir w h (y * w + x) = 0) ∧
    (mag (y * w + x) ≠ 0 →
      (((orientNeighbors mag w x y (quantDeg (dir (y * w + x)))).1 ≤ mag (y * w + x) ∧
        (orientNeighbors mag w x y (quantDeg (dir (y * w + x)))).2 ≤ mag (y * w + x)) →
          nonMaxSuppression mag dir w h (y * w + x) = mag (y * w + x)) ∧
      (¬((orientNeighbors mag w x y (quantDeg (dir (y * w + x)))).1 ≤ mag (y * w + x) ∧
        (orientNeighbors mag w x y (quantDeg (dir (y * w + x)))).2 ≤ mag (y * w + x)) →
          nonMaxSuppression mag dir w h (y * w + x) = 0)) := by
  have hxw : x < w := by omega
  have hmod : (y * w + x) % w = x := flat_mod hxw
  have hdiv : (y * w + x) / w = y := flat_div hxw
  simp only [nonMaxSuppression, hmod, hdiv]
  rw [if_pos ⟨hx1, hx2, hy1, hy2⟩]
  refine ⟨fun hm => by rw [if_pos hm], fun hm => ⟨fun hloc => ?_, fun hloc => ?_⟩⟩
  · rw [if_neg hm, if_pos hloc]
  · rw [if_neg hm, if_neg hloc]

/-- C6 witness. -/
theorem nms_local_max_characterization_witness :
    ((fun _ : ℕ => (3:ℝ)) (1 * 3 + 1) = 0 →
      nonMaxSuppression (fun _ => 3) (fun _ => 0) 3 3 (1 * 3 + 1) = 0) ∧
    ((fun _ : ℕ => (3:ℝ)) (1 * 3 + 1) ≠ 0 →
      (((orientNeighbors (fun _ => 3) 3 1 1 (quantDeg ((fun _ : ℕ => (0:ℝ)) (1 * 3 + 1)))).1
          ≤ (fun _ : ℕ => (3:ℝ)) (1 * 3 + 1) ∧
        (orientNeighbors (fun _ => 3) 3 1 1 (quantDeg ((fun _ : ℕ => (0:ℝ)) (1 * 3 + 1)))).2
          ≤ (fun _ : ℕ => (3:ℝ)) (1 * 3 + 1)) →
          nonMaxSuppression (fun _ => 3) (fun _ => 0) 3 3 (1 * 3 + 1)
            = (fun _ : ℕ => (3:ℝ)) (1 * 3 + 1)) ∧
      (¬((orientNeighbors (fun _ => 3) 3 1 1 (quantDeg ((fun _ : ℕ => (0:ℝ)) (1 * 3 + 1)))).1
          ≤ (fun _ : ℕ => (3:ℝ)) (1 * 3 + 1) ∧
        (orientNeighbors (fun _ => 3) 3 1 1 (quantDeg ((fun _ : ℕ => (0:ℝ)) (1 * 3 + 1)))).2
          ≤ (fun _ : ℕ => (3:ℝ)) (1 * 3 + 1)) →
          nonMaxSuppression (fun _ => 3) (fun _ => 0) 3 3 (1 * 3 + 1) = 0)) :=
  nms_local_max_characterization (fun _ => 3) (fun _ => 0) 3 3 1 1
    (by decide) (by decide) (by decide) (by decide)

theorem interiorPairs_mem {w h : ℕ} {p : ℕ × ℕ} (hp : p ∈ interiorPairs w h) :
    1 ≤ p.1 ∧ p.1 ≤ w - 2 ∧ 1 ≤ p.2 ∧ p.2 ≤ h - 2 ∧ 2 < w ∧ 2 < h := by
  rw [interiorPairs] at hp
  obtain ⟨yy, hyy, hxp⟩ := List.mem_flatMap.mp hp
  obtain ⟨xx, hxx, rfl⟩ := List.mem_map.mp hxp
  rw [List.mem_range'_1] at hyy hxx
  exact ⟨hxx.1, by omega, hyy.1, by omega, by omega, by omega⟩

/-- C7: every index `sobel` and `nonMaxSuppression` read or write is in
bounds, and both leave the entire 1-pixel border ring at exactly zero
(magnitude, direction, and suppressed output). -/
theorem sobel_nms_bounds_and_border (input mag dir : ℕ → ℝ) (w h : ℕ) :
    (∀ i ∈ sobelReads w h, i < w * h) ∧
    (∀ i ∈ sobelWrites w h, i < w * h) ∧
    (∀ i ∈ nmsReads w h, i < w * h) ∧
    (∀ i ∈ nmsWrites w h, i < w * h) ∧
    (∀ idx, idx < w * h →
      (idx % w = 0 ∨ idx % w = w - 1 ∨ idx / w = 0 ∨ idx / w = h - 1) →
      (sobel input w h).1 idx = 0 ∧ (sobel input w h).2 idx = 0 ∧
        nonMaxSuppression mag dir w h idx = 0) := by
  refine ⟨?_, ?_, ?_, ?_, ?_⟩
  · intro i hi
    rw [sobelReads] at hi
    obtain ⟨p, hp, hm⟩ := List.mem_flatMap.mp hi
    obtain ⟨h1, h2, h3, h4, h5, h6⟩ := interiorPairs_mem hp
    simp only [List.mem_cons, List.not_mem_nil, or_false] at hm
    rcases hm with rfl | rfl | rfl | rfl | rfl | rfl | rfl | rfl <;>
      exact flat_lt (by omega) (by omega)
  · intro i hi
    rw [sobelWrites] at hi
    obtain ⟨p, hp, rfl⟩ := List.mem_map.mp hi
    obtain ⟨h1, h2, h3, h4, h5, h6⟩ := interiorPairs_mem hp
    exact flat_lt (by omega) (by omega)
  · intro i hi
    rw [nmsReads] at hi
    obtain ⟨p, hp, hm⟩ := List.mem_flatMap.mp hi
    obtain ⟨h1, h2, h3, h4, h5, h6⟩ := interiorPairs_mem hp
    simp only [List.mem_cons, List.not_mem_nil, or_false] at hm
    rcases hm with rfl | rfl | rfl | rfl | rfl | rfl | rfl | rfl | rfl <;>
      exact flat_lt (by omega) (by omega)
  · intro i hi
    rw [nmsWrites] at hi
    obtain ⟨p, hp, rfl⟩ := List.mem_map.mp hi
    obtain ⟨h1, h2, h3, h4, h5, h6⟩ := interiorPairs_mem hp
    exact flat_lt (by omega) (by omega)
  · intro idx hidx hborder
    have hw : 0 < w := by
      rcases Nat.eq_zero_or_pos w with hw | hw
      · rw [hw] at hidx; omega
      · exact hw
    have hxlt : idx % w < w := Nat.mod_lt _ hw
    have hguard : ¬(1 ≤ idx % w ∧ idx % w < w - 1 ∧ 1 ≤ idx / w ∧ idx / w < h - 1) := by
      omega
    refine ⟨?_, ?_, ?_⟩
    · simp only [sobel]
      rw [if_neg hguard]
    · simp only [sobel]
      rw [if_neg hguard]
    · simp only [nonMaxSuppression]
      rw [if_neg hguard]

/-- C7 witness. -/
theorem sobel_nms_bounds_and_border_witness :
    (5 ∈ sobelReads 4 4 ∧ 5 < 4 * 4) ∧
    ((sobel (fun _ => 1) 4 4).1 0 = 0 ∧ (sobel (fun _ => 1) 4 4).2 0 = 0 ∧
      nonMaxSuppression (fun _ => 1) (fun _ => 0) 4 4 0 = 0) :=
  ⟨⟨by decide,
    (sobel_nms_bounds_and_border (fun _ => 1) (fun _ => 1) (fun _ => 0) 4 4).1 5 (by decide)⟩,
   (sobel_nms_bounds_and_border (fun _ => 1) (fun _ => 1) (fun _ => 0) 4 4).2.2.2.2 0
     (by decide) (by decide)⟩

end Canny
